import Mathlib

/-!
Verification development for the folly hazard-pointer thread-local layer
(src/folly/synchronization/HazptrThrLocal.h).

Two components are embedded:

* hazptr_tc — the per-thread guard cache (fixed capacity 6, LIFO stack of
  hazptr_rec handles, instrumented refill-rate check);
* hazptr_priv — the per-thread retired-object buffer (intrusive singly
  linked list with head_/tail_/rcount_, threshold-20 bulk hand-off to the
  domain, teardown bypass).

Handles and retired objects are identified by natural numbers.  Calls to
the external domain (hprec_acquire, hprec_release, hazptr_domain_push_retired)
are recorded in ghost observation fields (domOps, log); the ghost field
pushed of hazptr_priv records every object ever given to push and is used
only as recursion fuel and in specifications, never to steer behavior.
-/

namespace Folly

/-- Calls made by the thread-local layer to the domain collaborator. -/
inductive DomOp where
  | acquire (hprec : Nat)
  | release (hprec : Nat)
deriving DecidableEq

/-- hazptr_tc: thread cache of hazptr_rec handles (HazptrThrLocal.h, class hazptr_tc).
entry_ models the slot array (slots at indices ≥ count_ hold stale leftovers,
exactly as in the C++ array); count_, num_fills_, first_fill_time_ mirror the
fields of the same names (time in nanoseconds of steady_clock); domOps is a
ghost log of domain interactions. -/
structure hazptr_tc where
  entry_ : Nat → Nat
  count_ : Nat
  num_fills_ : Nat
  first_fill_time_ : Nat
  domOps : List DomOp

/-- kCapacity = 6. -/
def kCapacity : Nat := 6

/-- The thread cache as constructed (zero-initialized members, empty ghost log). -/
def tcInit : hazptr_tc := ⟨fun _ => 0, 0, 0, 0, []⟩

/-- hazptr_tc::try_get: pop the top occupied slot if count_ > 0
(entry_[--count_].get()); otherwise return nullptr (none). -/
def hazptr_tc.try_get (s : hazptr_tc) : Option Nat × hazptr_tc :=
  if 0 < s.count_ then
    (some (s.entry_ (s.count_ - 1)), { s with count_ := s.count_ - 1 })
  else
    (none, s)

/-- hazptr_tc::try_put: if count_ < capacity, entry_[count_++].fill(hprec)
and return true; otherwise return false with no effect. -/
def hazptr_tc.try_put (s : hazptr_tc) (hprec : Nat) : Bool × hazptr_tc :=
  if s.count_ < kCapacity then
    (true, { s with
              entry_ := fun i => if i = s.count_ then hprec else s.entry_ i,
              count_ := s.count_ + 1 })
  else
    (false, s)

/-- hazptr_tc::~hazptr_tc: for i in [0, count_): entry_[i].evict(), i.e. one
hprec release to the domain per occupied slot, in slot order. -/
def hazptr_tc.dtor (s : hazptr_tc) : hazptr_tc :=
  { s with domOps := s.domOps ++ (List.range s.count_).map (fun i => DomOp.release (s.entry_ i)) }

/-- Outcomes of the fatal checks: a DCHECK precondition violation
(DCHECK_LE in fill, DCHECK_GE in evict) or the CHECK_GT pathological
refill-rate diagnostic. -/
inductive TCErr where
  | precondition
  | tooFrequent
deriving DecidableEq

/-- max_fills = 10 (fill_should_not_be_called_frequently). -/
def max_fills : Nat := 10

/-- period = 1 millisecond, in nanoseconds. -/
def periodNs : Nat := 1000000

/-- hazptr_tc::fill_should_not_be_called_frequently, with the current
steady-clock time (ns) passed in.  num_fills_ is uint16_t, hence the mod 2^16.
Returns none when CHECK_GT(dur, period) fails, i.e. when the count has just
exceeded max_fills and no more than 1ms has elapsed since the window start. -/
def hazptr_tc.fill_should_not_be_called_frequently (s : hazptr_tc) (now : Nat) :
    Option hazptr_tc :=
  let old := s.num_fills_
  let s' := { s with num_fills_ := (s.num_fills_ + 1) % 65536 }
  if old = 0 then
    some { s' with first_fill_time_ := now }
  else if max_fills < s'.num_fills_ then
    if periodNs < now - s'.first_fill_time_ then
      some { s' with num_fills_ := 1, first_fill_time_ := now }
    else
      none
  else
    some s'

/-- hazptr_tc::fill(num): DCHECK_LE(count_ + num, capacity()), then the rate
check, then num domain acquisitions placed into successive slots.  The handles
the domain hands out are passed in as recs (num = recs.length). -/
def hazptr_tc.fill (s : hazptr_tc) (recs : List Nat) (now : Nat) :
    Except TCErr hazptr_tc :=
  if s.count_ + recs.length ≤ kCapacity then
    match s.fill_should_not_be_called_frequently now with
    | none => .error TCErr.tooFrequent
    | some s1 =>
        .ok (recs.foldl
          (fun t r =>
            { t with
                entry_ := fun i => if i = t.count_ then r else t.entry_ i,
                count_ := t.count_ + 1,
                domOps := t.domOps ++ [DomOp.acquire r] }) s1)
  else
    .error TCErr.precondition

/-- hazptr_tc::evict(num): DCHECK_GE(count_, num), then num times
entry_[--count_].evict(). -/
def hazptr_tc.evict (s : hazptr_tc) (num : Nat) : Except TCErr hazptr_tc :=
  if num ≤ s.count_ then
    .ok ((List.range num).foldl
      (fun t _ =>
        { t with
            count_ := t.count_ - 1,
            domOps := t.domOps ++ [DomOp.release (t.entry_ (t.count_ - 1))] }) s)
  else
    .error TCErr.precondition

/-- Iterated calls to fill with num = 0 at the given times: exercises only the
instrumentation (the slot array and count are untouched by a zero fill). -/
def runFills (s : hazptr_tc) : List Nat → Except TCErr hazptr_tc
  | [] => .ok s
  | t :: ts =>
    match s.fill [] t with
    | .error e => .error e
    | .ok s1 => runFills s1 ts

/-! ## hazptr_priv — the per-thread retired-object buffer -/

/-- A batch handed to hazptr_domain_push_retired: the objects of the
hazptr_obj_list from its head through its next-links, and its count field. -/
abbrev Batch := List Nat × Nat

/-- hazptr_priv (HazptrThrLocal.h): head_ and tail_ are the atomic list ends,
next is the store of the per-object intrusive next-links (obj->set_next),
rcount_ and in_dtor_ mirror the fields of the same names.  log is a ghost
record of every hazptr_domain_push_retired call; pushed is a ghost record of
every object ever passed to push (used as recursion fuel and in statements). -/
structure hazptr_priv where
  head_ : Option Nat
  tail_ : Option Nat
  next : Nat → Option Nat
  rcount_ : Nat
  in_dtor_ : Bool
  log : List Batch
  pushed : List Nat

/-- The hazptr_priv constructor: head_(nullptr), tail_(nullptr), rcount_(0),
in_dtor_(false); the next-link store is irrelevant initially. -/
def privInit : hazptr_priv := ⟨none, none, fun _ => none, 0, false, [], []⟩

/-- kThreshold = 20. -/
def kThreshold : Nat := 20

/-- obj->set_next(n). -/
def set_next (s : hazptr_priv) (obj : Nat) (n : Option Nat) : hazptr_priv :=
  { s with next := fun x => if x = obj then n else s.next x }

/-- hazptr_priv::push_in_non_empty_list: read head; if non-null, link obj
before it and cas head to obj.  On the owning thread no interleaving point
separates the read from the cas, so the cas outcome is determined: success. -/
def push_in_non_empty_list (s : hazptr_priv) (obj : Nat) : Bool × hazptr_priv :=
  match s.head_ with
  | some h => (true, { set_next s obj (some h) with head_ := some obj })
  | none => (false, s)

/-- hazptr_priv::push_in_empty_list: obj->set_next(nullptr), cas tail from
nullptr to obj and, on success, publish obj as head.  The cas succeeds iff
tail_ is still null (on the owning thread it is, the caller just read it). -/
def push_in_empty_list (s : hazptr_priv) (obj : Nat) : Bool × hazptr_priv :=
  match s.tail_ with
  | none => (true, { set_next s obj none with tail_ := some obj, head_ := some obj })
  | some _ => (false, s)

/-- The retry loop in push_in_priv_list before the count bump.  A same-thread
execution has no interleaving point inside the loop, so a failed attempt
repeats with the state unchanged: the loop either succeeds at its first
attempt or spins forever; the latter is modeled as none. -/
def push_step (s : hazptr_priv) (obj : Nat) : Option hazptr_priv :=
  if s.tail_.isSome then
    match push_in_non_empty_list s obj with
    | (true, s') => some s'
    | (false, _) => none
  else
    match push_in_empty_list s obj with
    | (true, s') => some s'
    | (false, _) => none

/-- head_.exchange(nullptr). -/
def exchange_head (s : hazptr_priv) : Option Nat × hazptr_priv :=
  (s.head_, { s with head_ := none })

/-- tail_.exchange(nullptr). -/
def exchange_tail (s : hazptr_priv) : Option Nat × hazptr_priv :=
  (s.tail_, { s with tail_ := none })

/-- hazptr_priv::collect: exchange head_ with null; only if it was non-null,
exchange tail_ as well and return the detached ends.  rcount_ is not touched. -/
def collect (s : hazptr_priv) : Option (Nat × Option Nat) × hazptr_priv :=
  match exchange_head s with
  | (none, s1) => (none, s1)
  | (some h, s1) =>
    match exchange_tail s1 with
    | (t, s2) => (some (h, t), s2)

/-- Materialize the nodes reachable from an intrusive-list head through the
next-links, with explicit fuel (the ghost pushed count bounds every reachable
list in this development). -/
def reach (next : Nat → Option Nat) : Nat → Option Nat → List Nat
  | 0, _ => []
  | _ + 1, none => []
  | fuel + 1, some a => a :: reach next fuel (next a)

/-- The first half of hazptr_priv::push_all_to_domain: collect, and if the
detached head is non-null, build the hazptr_obj_list (h, t, rcount_) and hand
it to hazptr_domain_push_retired (recorded in the ghost log as the materialized
node list plus the count).  Returns none when the list was empty, in which case
no domain call happens and the state is unchanged.  The caller performs the
trailing rcount_ = 0 after the domain call returns. -/
def flush_pre (s : hazptr_priv) : Option hazptr_priv :=
  match collect s with
  | (none, _) => none
  | (some (h, _t), s2) =>
    some { s2 with log := s2.log ++ [(reach s2.next s2.pushed.length (some h), s2.rcount_)] }

/-- hazptr_priv::push_all_to_domain, in an execution where the domain call
triggers no reentrant retirement (reentrant pushes during the hand-off are
modeled in execTree below). -/
def push_all_to_domain (s : hazptr_priv) : hazptr_priv :=
  match flush_pre s with
  | none => s
  | some s3 => { s3 with rcount_ := 0 }

/-- hazptr_priv::~hazptr_priv: in_dtor_ = true, then if the list is non-empty
(empty() is head() == nullptr), one final push_all_to_domain. -/
def hazptr_priv_dtor (s : hazptr_priv) : hazptr_priv :=
  let s1 := { s with in_dtor_ := true }
  if s1.head_ = none then s1 else push_all_to_domain s1

/-- A well-nested same-thread execution of push calls: node obj nested is a
call push(obj) such that, if this push hands a batch to the domain, the pushes
in nested occur reentrantly during that domain call (a retirement triggered by
a reclamation running inside hazptr_domain_push_retired).  If the push hands
nothing to the domain, no reentrant call can occur and nested is ignored. -/
inductive PushTree where
  | node (obj : Nat) (nested : List PushTree)

mutual

/-- Execute one push call (hazptr_priv::push) together with the reentrant
pushes nested inside its domain hand-off, if that hand-off happens.  When
in_dtor_ is set, push bypasses the list: hazptr_obj_list l(obj) goes straight
to hazptr_domain_push_retired as a singleton batch of count 1.  Otherwise
push_in_priv_list runs: the insertion loop, ++rcount_, and, at kThreshold,
push_all_to_domain with the reentrant pushes running during the domain call
and rcount_ = 0 after it returns. -/
def execTree (s : hazptr_priv) (t : PushTree) : Option hazptr_priv :=
  match t with
  | PushTree.node obj nested =>
    if s.in_dtor_ then
      execForest { s with log := s.log ++ [([obj], 1)], pushed := s.pushed ++ [obj] } nested
    else
      match push_step s obj with
      | none => none
      | some s1 =>
        let s2 := { s1 with rcount_ := s1.rcount_ + 1, pushed := s1.pushed ++ [obj] }
        if kThreshold ≤ s2.rcount_ then
          match flush_pre s2 with
          | none => some s2
          | some s3 =>
            match execForest s3 nested with
            | none => none
            | some s4 => some { s4 with rcount_ := 0 }
        else
          some s2
termination_by (sizeOf t, 1)

/-- Execute a sequence of push calls in order. -/
def execForest (s : hazptr_priv) (F : List PushTree) : Option hazptr_priv :=
  match F with
  | [] => some s
  | t :: rest =>
    match execTree s t with
    | none => none
    | some s1 => execForest s1 rest
termination_by (sizeOf F, 0)

end

/-- All objects mentioned in a forest of push calls, including nested ones. -/
def nodesF : List PushTree → List Nat
  | [] => []
  | PushTree.node obj nested :: rest => obj :: (nodesF nested ++ nodesF rest)
termination_by F => sizeOf F

/-- A forest is flat when no push carries reentrant pushes. -/
def flatF : List PushTree → Bool
  | [] => true
  | PushTree.node _ nested :: rest => nested.isEmpty && flatF rest

/-- The flat forest of a plain sequential push sequence. -/
def flat (obs : List Nat) : List PushTree :=
  obs.map (fun o => PushTree.node o [])

/-! ## The list abstraction and the buffer invariant -/

/-- chainFrom next o l: starting from the (possibly null) pointer o and
following the next-links yields exactly the nodes l and then null. -/
def chainFrom (next : Nat → Option Nat) : Option Nat → List Nat → Prop
  | o, [] => o = none
  | o, a :: l => o = some a ∧ chainFrom next (next a) l

/-- Every node ever handed to the domain in some batch, in hand-off order. -/
def deliveredNodes (log : List Batch) : List Nat :=
  log.foldr (fun b r => b.1 ++ r) []

/-- The buffer invariant at an observation point: l is the list reachable from
head_; tail_ points at its last node; every object handed to push so far is
distinct and is accounted for exactly once, either in a delivered batch or in
the current list. -/
structure PrivInv (s : hazptr_priv) (l : List Nat) : Prop where
  chain : chainFrom s.next s.head_ l
  tail_ok : s.tail_ = l.getLast?
  hand : (deliveredNodes s.log ++ l).Perm s.pushed
  nodup : s.pushed.Nodup

@[simp] theorem chainFrom_nil (next : Nat → Option Nat) (o : Option Nat) :
    chainFrom next o [] ↔ o = none := Iff.rfl

@[simp] theorem chainFrom_cons (next : Nat → Option Nat) (o : Option Nat) (a : Nat)
    (l : List Nat) :
    chainFrom next o (a :: l) ↔ o = some a ∧ chainFrom next (next a) l := Iff.rfl

theorem chainFrom_congr {n₁ n₂ : Nat → Option Nat} :
    ∀ {l : List Nat} {o : Option Nat}, (∀ x ∈ l, n₁ x = n₂ x) →
      chainFrom n₁ o l → chainFrom n₂ o l := by
  intro l
  induction l with
  | nil => intro o _ h; exact h
  | cons a l ih =>
    intro o hagree h
    obtain ⟨rfl, hrest⟩ := h
    refine ⟨rfl, ?_⟩
    have ha : n₁ a = n₂ a := hagree a (by simp)
    rw [← ha]
    exact ih (fun x hx => hagree x (by simp [hx])) hrest

theorem reach_of_chain {next : Nat → Option Nat} :
    ∀ {l : List Nat} {o : Option Nat} {fuel : Nat}, chainFrom next o l →
      l.length ≤ fuel → reach next fuel o = l := by
  intro l
  induction l with
  | nil =>
    intro o fuel h _
    rw [chainFrom_nil] at h
    subst h
    cases fuel <;> simp [reach]
  | cons a l ih =>
    intro o fuel h hfuel
    obtain ⟨rfl, hrest⟩ := h
    cases fuel with
    | zero => simp at hfuel
    | succ fuel =>
      simp only [reach]
      rw [ih hrest (by simpa using hfuel)]

theorem deliveredNodes_append (L₁ L₂ : List Batch) :
    deliveredNodes (L₁ ++ L₂) = deliveredNodes L₁ ++ deliveredNodes L₂ := by
  induction L₁ with
  | nil => simp [deliveredNodes]
  | cons b L ih => simp [deliveredNodes] at ih ⊢; simp [ih]

@[simp] theorem deliveredNodes_one (b : Batch) : deliveredNodes [b] = b.1 := by
  simp [deliveredNodes]

/-- Under the invariant, the current list is a subcollection of pushed. -/
theorem PrivInv.subset_pushed {s : hazptr_priv} {l : List Nat} (h : PrivInv s l) :
    l ⊆ s.pushed :=
  fun _x hx => h.hand.subset (List.mem_append_right _ hx)

theorem PrivInv.length_le {s : hazptr_priv} {l : List Nat} (h : PrivInv s l) :
    l.length ≤ s.pushed.length := by
  have := h.hand.length_eq
  simp only [List.length_append] at this
  omega

theorem PrivInv.list_nodup {s : hazptr_priv} {l : List Nat} (h : PrivInv s l) :
    l.Nodup := by
  have : (deliveredNodes s.log ++ l).Nodup := h.hand.nodup_iff.mpr h.nodup
  exact (List.nodup_append.mp this).2.1

/-- head_ is null iff the reachable list is empty. -/
theorem chainFrom_head_none {next : Nat → Option Nat} {o : Option Nat} {l : List Nat}
    (h : chainFrom next o l) : o = none ↔ l = [] := by
  cases l with
  | nil => simpa using h
  | cons a l => obtain ⟨rfl, _⟩ := h; simp

/-- Under the invariant, head_ is null iff tail_ is null. -/
theorem PrivInv.head_iff_tail {s : hazptr_priv} {l : List Nat} (h : PrivInv s l) :
    s.head_ = none ↔ s.tail_ = none := by
  rw [chainFrom_head_none h.chain, h.tail_ok]
  cases l <;> simp

theorem privInv_init : PrivInv privInit [] := by
  constructor <;> simp [privInit, deliveredNodes, chainFrom]

/-! ## Step lemmas -/

/-- On the owning thread, the insertion loop of push_in_priv_list succeeds at
its first attempt and prepends obj to the reachable list, leaving every other
field and every other next-link unchanged. -/
theorem push_step_spec {s : hazptr_priv} {l : List Nat} {obj : Nat}
    (hchain : chainFrom s.next s.head_ l) (htail : s.tail_ = l.getLast?)
    (hobj : obj ∉ l) :
    ∃ s1, push_step s obj = some s1 ∧
      chainFrom s1.next s1.head_ (obj :: l) ∧
      s1.tail_ = (obj :: l).getLast? ∧
      s1.rcount_ = s.rcount_ ∧ s1.in_dtor_ = s.in_dtor_ ∧
      s1.log = s.log ∧ s1.pushed = s.pushed ∧
      (∀ x, x ≠ obj → s1.next x = s.next x) := by
  cases l with
  | nil =>
    have ht : s.tail_ = none := by simpa using htail
    have hstep : push_step s obj =
        some { set_next s obj none with tail_ := some obj, head_ := some obj } := by
      simp [push_step, ht, push_in_empty_list]
    refine ⟨_, hstep, ⟨rfl, ?_⟩, ?_, rfl, rfl, rfl, rfl, ?_⟩
    · simp [set_next, chainFrom]
    · simp
    · intro x hx; simp [set_next, hx]
  | cons a l' =>
    obtain ⟨hh, hrest⟩ := hchain
    have ht : s.tail_.isSome := by
      rw [htail]
      cases l' <;> simp
    have hstep : push_step s obj =
        some { set_next s obj (some a) with head_ := some obj } := by
      simp [push_step, ht, push_in_non_empty_list, hh]
    refine ⟨_, hstep, ⟨rfl, ?_⟩, ?_, rfl, rfl, rfl, rfl, ?_⟩
    · have hnx : (set_next s obj (some a)).next obj = some a := by simp [set_next]
      show chainFrom (set_next s obj (some a)).next ((set_next s obj (some a)).next obj) (a :: l')
      rw [hnx]
      refine chainFrom_congr ?_ ⟨rfl, hrest⟩
      intro x hx
      have hxo : x ≠ obj := fun h => hobj (h ▸ hx)
      simp [set_next, hxo]
    · show s.tail_ = (obj :: a :: l').getLast?
      rw [htail, List.getLast?_cons_cons]
    · intro x hx; simp [set_next, hx]

/-- collect on a non-empty list detaches both ends and the batch handed to the
domain is exactly the reachable list with the current rcount_. -/
theorem flush_pre_some {s : hazptr_priv} {l : List Nat}
    (hchain : chainFrom s.next s.head_ l) (hlen : l.length ≤ s.pushed.length)
    (hne : l ≠ []) :
    flush_pre s =
      some { s with head_ := none, tail_ := none, log := s.log ++ [(l, s.rcount_)] } := by
  cases l with
  | nil => exact absurd rfl hne
  | cons a l' =>
    obtain ⟨hh, hrest⟩ := hchain
    have hreach : reach s.next s.pushed.length (some a) = a :: l' :=
      reach_of_chain ⟨rfl, hrest⟩ hlen
    simp [flush_pre, collect, exchange_head, exchange_tail, hh, hreach]

/-- Componentwise form of flush_pre_some. -/
theorem flush_pre_spec {s : hazptr_priv} {l : List Nat}
    (hchain : chainFrom s.next s.head_ l) (hlen : l.length ≤ s.pushed.length)
    (hne : l ≠ []) :
    ∃ s3, flush_pre s = some s3 ∧ s3.head_ = none ∧ s3.tail_ = none ∧
      s3.next = s.next ∧ s3.rcount_ = s.rcount_ ∧ s3.in_dtor_ = s.in_dtor_ ∧
      s3.log = s.log ++ [(l, s.rcount_)] ∧ s3.pushed = s.pushed :=
  ⟨_, flush_pre_some hchain hlen hne, rfl, rfl, rfl, rfl, rfl, rfl, rfl⟩

/-- collect on an empty list makes no domain call. -/
theorem flush_pre_none {s : hazptr_priv} (hh : s.head_ = none) :
    flush_pre s = none := by
  simp [flush_pre, collect, exchange_head, hh]

@[simp] theorem execForest_nil (s : hazptr_priv) : execForest s [] = some s := by
  simp [execForest]

theorem execForest_cons (s : hazptr_priv) (t : PushTree) (rest : List PushTree) :
    execForest s (t :: rest) =
      match execTree s t with
      | none => none
      | some s1 => execForest s1 rest := by
  rw [execForest]

/-- One push below the threshold: obj is prepended, rcount_ is bumped, nothing
reaches the domain and any would-be reentrant pushes never run. -/
theorem execTree_low {s : hazptr_priv} {l : List Nat} {o : Nat} {N : List PushTree}
    (hchain : chainFrom s.next s.head_ l) (htail : s.tail_ = l.getLast?)
    (hdtor : s.in_dtor_ = false) (ho : o ∉ l)
    (hr : s.rcount_ + 1 < kThreshold) :
    ∃ s2, execTree s (PushTree.node o N) = some s2 ∧
      chainFrom s2.next s2.head_ (o :: l) ∧
      s2.tail_ = (o :: l).getLast? ∧
      s2.rcount_ = s.rcount_ + 1 ∧ s2.in_dtor_ = false ∧
      s2.log = s.log ∧ s2.pushed = s.pushed ++ [o] := by
  obtain ⟨s1, hstep, hch1, ht1, hrc1, hd1, hl1, hp1, _⟩ := push_step_spec hchain htail ho
  have hlt : ¬ kThreshold ≤ s1.rcount_ + 1 := by omega
  refine ⟨{ s1 with rcount_ := s1.rcount_ + 1, pushed := s1.pushed ++ [o] }, ?_,
    hch1, ht1, by simp [hrc1], by simp [hd1, hdtor], by simp [hl1], by simp [hp1]⟩
  rw [execTree]
  simp [hdtor, hstep, hlt]

/-- The 20th push: o is prepended, rcount_ reaches kThreshold, the whole
list is detached and handed to the domain as one batch carrying count
rcount_ + 1 = 20, and rcount_ is reset to 0 afterwards (no reentrancy). -/
theorem execTree_flush {s : hazptr_priv} {l : List Nat} {o : Nat}
    (hchain : chainFrom s.next s.head_ l) (htail : s.tail_ = l.getLast?)
    (hdtor : s.in_dtor_ = false) (ho : o ∉ l)
    (hlen : l.length ≤ s.pushed.length)
    (hr : kThreshold ≤ s.rcount_ + 1) :
    ∃ s', execTree s (PushTree.node o []) = some s' ∧
      s'.head_ = none ∧ s'.tail_ = none ∧
      s'.rcount_ = 0 ∧ s'.in_dtor_ = false ∧
      s'.log = s.log ++ [(o :: l, s.rcount_ + 1)] ∧
      s'.pushed = s.pushed ++ [o] := by
  obtain ⟨s1, hstep, hch1, ht1, hrc1, hd1, hl1, hp1, _⟩ := push_step_spec hchain htail ho
  have hge : kThreshold ≤ s1.rcount_ + 1 := by omega
  have hlen2 : (o :: l).length ≤ (s1.pushed ++ [o]).length := by
    simp [hp1]; omega
  obtain ⟨s3, hfp, h3h, h3t, h3n, h3r, h3d, h3l, h3p⟩ := flush_pre_spec
    (s := { s1 with rcount_ := s1.rcount_ + 1, pushed := s1.pushed ++ [o] })
    (l := o :: l) hch1 hlen2 (by simp)
  refine ⟨{ s3 with rcount_ := 0 }, ?_, h3h, h3t, rfl, ?_, ?_, ?_⟩
  · rw [execTree]
    simp only [hdtor, Bool.false_eq_true, if_false, hstep]
    simp [hge, hfp]
  · simp only [h3d] at *
    simpa [hd1] using hdtor
  · simp only [h3l] at *
    simp [hl1, hrc1]
  · simp only [h3p] at *
    simp [hp1]

theorem execForest_append (F₁ F₂ : List PushTree) :
    ∀ s, execForest s (F₁ ++ F₂) =
      match execForest s F₁ with
      | none => none
      | some s1 => execForest s1 F₂ := by
  induction F₁ with
  | nil => intro s; simp
  | cons t rest ih =>
    intro s
    rw [List.cons_append, execForest_cons, execForest_cons]
    cases execTree s t with
    | none => rfl
    | some s1 => exact ih s1

/-- A run of plain sequential pushes that stays below the threshold: each push
prepends its object, rcount_ counts them, and the domain is never called. -/
theorem seq_pushes :
    ∀ (obs : List Nat) (s : hazptr_priv) (l : List Nat),
      chainFrom s.next s.head_ l → s.tail_ = l.getLast? → s.in_dtor_ = false →
      (∀ o ∈ obs, o ∉ l) → obs.Nodup → s.rcount_ + obs.length < kThreshold →
      ∃ s', execForest s (flat obs) = some s' ∧
        chainFrom s'.next s'.head_ (obs.reverse ++ l) ∧
        s'.tail_ = (obs.reverse ++ l).getLast? ∧
        s'.rcount_ = s.rcount_ + obs.length ∧ s'.in_dtor_ = false ∧
        s'.log = s.log ∧ s'.pushed = s.pushed ++ obs := by
  intro obs
  induction obs with
  | nil =>
    intro s l hch ht hd _ _ _
    exact ⟨s, by simp [flat], hch, ht, by simp, hd, rfl, by simp⟩
  | cons o obs ih =>
    intro s l hch ht hd hdisj hnodup hcnt
    have hol : o ∉ l := hdisj o (by simp)
    obtain ⟨s2, hexec, hch2, ht2, hr2, hd2, hl2, hp2⟩ :=
      execTree_low (N := []) hch ht hd hol (by simp at hcnt; omega)
    obtain ⟨s', hexec', hch', ht', hr', hd', hl', hp'⟩ :=
      ih s2 (o :: l) hch2 ht2 hd2
        (by
          intro x hx
          simp only [List.mem_cons, not_or]
          exact ⟨fun hxo => (List.nodup_cons.mp hnodup).1 (hxo ▸ hx),
            hdisj x (by simp [hx])⟩)
        (List.nodup_cons.mp hnodup).2
        (by simp at hcnt ⊢; omega)
    refine ⟨s', ?_, by simpa using hch', by simpa using ht', ?_, hd', by rw [hl', hl2], ?_⟩
    · show execForest s (flat (o :: obs)) = some s'
      have hfl : flat (o :: obs) = PushTree.node o [] :: flat obs := rfl
      rw [hfl, execForest_cons, hexec]
      exact hexec'
    · rw [hr', hr2]; simp; omega
    · rw [hp', hp2]; simp

/-- Accounting step shared by insertion and flush: a fresh object entering the
collection (either the live list or a delivered batch) preserves the
delivered-or-buffered permutation. -/
theorem perm_push_middle {dlog l pushed : List Nat} {obj : Nat}
    (h : (dlog ++ l).Perm pushed) : (dlog ++ obj :: l).Perm (pushed ++ [obj]) :=
  (List.perm_middle.trans (h.cons obj)).trans (List.perm_append_singleton obj pushed).symm

/-- Prepending a fresh object preserves the buffer invariant. -/
theorem privInv_insert {s s2 : hazptr_priv} {l : List Nat} {obj : Nat}
    (hinv : PrivInv s l)
    (hch2 : chainFrom s2.next s2.head_ (obj :: l))
    (ht2 : s2.tail_ = (obj :: l).getLast?)
    (hl2 : s2.log = s.log) (hp2 : s2.pushed = s.pushed ++ [obj])
    (hobj : obj ∉ s.pushed) : PrivInv s2 (obj :: l) := by
  refine ⟨hch2, ht2, ?_, ?_⟩
  · rw [hl2, hp2]
    exact perm_push_middle hinv.hand
  · rw [hp2]
    refine List.Nodup.append hinv.nodup (List.nodup_singleton obj) ?_
    intro a ha hb
    simp only [List.mem_singleton] at hb
    exact hobj (hb ▸ ha)

/-- A push that reaches the threshold, with arbitrary reentrant pushes during
the domain hand-off: the pre-flush state s3 (detached list, batch logged,
rcount_ not yet reset) is exhibited, and the overall push result is the
nested execution from s3 followed by rcount_ = 0. -/
theorem execTree_flush_run {s : hazptr_priv} {l : List Nat} {o : Nat}
    {N : List PushTree}
    (hchain : chainFrom s.next s.head_ l) (htail : s.tail_ = l.getLast?)
    (hdtor : s.in_dtor_ = false) (ho : o ∉ l)
    (hlen : l.length ≤ s.pushed.length)
    (hth : kThreshold ≤ s.rcount_ + 1) :
    ∃ s3, s3.head_ = none ∧ s3.tail_ = none ∧
      s3.rcount_ = s.rcount_ + 1 ∧ s3.in_dtor_ = false ∧
      s3.log = s.log ++ [(o :: l, s.rcount_ + 1)] ∧
      s3.pushed = s.pushed ++ [o] ∧
      (∀ s4, execForest s3 N = some s4 →
        execTree s (PushTree.node o N) = some { s4 with rcount_ := 0 }) := by
  obtain ⟨s1, hstep, hch1, ht1, hrc1, hd1, hl1, hp1, _⟩ := push_step_spec hchain htail ho
  have hge : kThreshold ≤ s1.rcount_ + 1 := by omega
  have hlen2 : (o :: l).length ≤ (s1.pushed ++ [o]).length := by
    simp [hp1]; omega
  obtain ⟨s3, hfp, h3h, h3t, h3n, h3r, h3d, h3l, h3p⟩ := flush_pre_spec
    (s := { s1 with rcount_ := s1.rcount_ + 1, pushed := s1.pushed ++ [o] })
    (l := o :: l) hch1 hlen2 (by simp)
  refine ⟨s3, h3h, h3t, ?_, ?_, ?_, ?_, ?_⟩
  · rw [h3r]; show s1.rcount_ + 1 = s.rcount_ + 1; omega
  · rw [h3d]; show s1.in_dtor_ = false; rw [hd1]; exact hdtor
  · rw [h3l]; show s1.log ++ [(o :: l, s1.rcount_ + 1)] = s.log ++ [(o :: l, s.rcount_ + 1)]
    rw [hl1, hrc1]
  · rw [h3p]; show s1.pushed ++ [o] = s.pushed ++ [o]; rw [hp1]
  · intro s4 hex4
    rw [execTree]
    simp only [hdtor, Bool.false_eq_true, if_false, hstep]
    simp [hge, hfp, hex4]

/-- Soundness of well-N push executions on a live buffer: execution never
spins, the buffer invariant is preserved, the torn-down flag stays clear, the
ghost pushed record grows by a subsequence of the forest's objects, and in
reentrancy-free (flat) executions rcount_ tracks the reachable list length. -/
theorem execForest_sound :
    ∀ (n : Nat) (F : List PushTree) (s : hazptr_priv) (l : List Nat),
      sizeOf F ≤ n → PrivInv s l → s.in_dtor_ = false →
      (s.pushed ++ nodesF F).Nodup →
      ∃ s' l' ex, execForest s F = some s' ∧ PrivInv s' l' ∧
        s'.in_dtor_ = false ∧ s'.pushed = s.pushed ++ ex ∧
        ex.Sublist (nodesF F) ∧
        (flatF F = true → s.rcount_ = l.length → s'.rcount_ = l'.length) := by
  intro n
  induction n with
  | zero =>
    intro F s l hsz _ _ _
    exfalso
    have h1 : 0 < sizeOf F := by cases F <;> simp_arith
    omega
  | succ n ih =>
    intro F s l hsz hinv hd hnd
    cases F with
    | nil =>
      exact ⟨s, l, [], by simp, hinv, hd, by simp, by simp [nodesF], fun _ h => h⟩
    | cons t rest =>
      cases t with
      | node obj nested =>
        have hszs : 1 + (1 + sizeOf obj + sizeOf nested) + sizeOf rest ≤ n + 1 := by
          have : sizeOf (PushTree.node obj nested :: rest) =
              1 + (1 + sizeOf obj + sizeOf nested) + sizeOf rest := by simp_arith
          omega
        have hszr : sizeOf rest ≤ n := by omega
        have hszn : sizeOf nested ≤ n := by omega
        have hnodes : nodesF (PushTree.node obj nested :: rest) =
            obj :: (nodesF nested ++ nodesF rest) := by rw [nodesF]
        rw [hnodes] at hnd
        have hdisjp := (List.nodup_append.mp hnd).2.2
        have hobjp : obj ∉ s.pushed := fun h => hdisjp h (by simp)
        have hol : obj ∉ l := fun h => hobjp (hinv.subset_pushed h)
        by_cases hth : kThreshold ≤ s.rcount_ + 1
        · -- the push reaches the threshold: insert, detach, hand off, reentrant
          -- pushes run during the hand-off, then rcount_ = 0
          obtain ⟨s3, h3h, h3t, h3r, h3d, h3l, h3p, hcomp⟩ :=
            execTree_flush_run (N := nested) hinv.chain hinv.tail_ok hd hol
              hinv.length_le hth
          have hinv3 : PrivInv s3 [] := by
            refine ⟨h3h, by simp [h3t], ?_, ?_⟩
            · rw [h3l, h3p, deliveredNodes_append, deliveredNodes_one, List.append_nil]
              exact perm_push_middle hinv.hand
            · rw [h3p]
              refine List.Nodup.append hinv.nodup (List.nodup_singleton obj) ?_
              intro a ha hb
              simp only [List.mem_singleton] at hb
              exact hobjp (hb ▸ ha)
          have hnd3 : (s3.pushed ++ nodesF nested).Nodup := by
            refine List.Nodup.sublist ?_ hnd
            rw [h3p, List.append_assoc]
            refine List.Sublist.append_left ?_ s.pushed
            exact ((List.sublist_append_left (nodesF nested) (nodesF rest)).cons₂ obj)
          obtain ⟨s4, l4, exn, hex4, hinv4, hd4, hp4, hsub4, _⟩ :=
            ih nested s3 [] hszn hinv3 h3d hnd3
          have hinv5 : PrivInv { s4 with rcount_ := 0 } l4 :=
            ⟨hinv4.chain, hinv4.tail_ok, hinv4.hand, hinv4.nodup⟩
          have hnd5 : (({ s4 with rcount_ := 0 } : hazptr_priv).pushed ++ nodesF rest).Nodup := by
            refine List.Nodup.sublist ?_ hnd
            show (s4.pushed ++ nodesF rest).Sublist _
            rw [hp4, h3p, List.append_assoc, List.append_assoc]
            refine List.Sublist.append_left ?_ s.pushed
            show (obj :: (exn ++ nodesF rest)).Sublist (obj :: (nodesF nested ++ nodesF rest))
            exact (hsub4.append (List.Sublist.refl (nodesF rest))).cons₂ obj
          obtain ⟨s', l', exr, hex', hinv', hd', hp', hsub', hflat'⟩ :=
            ih rest { s4 with rcount_ := 0 } l4 hszr hinv5 hd4 hnd5
          refine ⟨s', l', obj :: (exn ++ exr), ?_, hinv', hd', ?_, ?_, ?_⟩
          · rw [execForest_cons, hcomp s4 hex4]
            exact hex'
          · rw [hp']
            show s4.pushed ++ exr = _
            rw [hp4, h3p]
            simp
          · rw [hnodes]
            exact ((hsub4.append hsub').cons₂ obj)
          · intro hfl hrc
            have hflp : nested.isEmpty = true ∧ flatF rest = true := by
              simpa [flatF, Bool.and_eq_true] using hfl
            have hnil : nested = [] := List.isEmpty_iff.mp hflp.1
            have hs43 : s4 = s3 := by
              rw [hnil] at hex4
              simpa using hex4.symm
            have hl4 : l4 = [] := by
              refine (chainFrom_head_none hinv4.chain).mp ?_
              rw [hs43]
              exact h3h
            refine hflat' hflp.2 ?_
            rw [hl4]
            rfl
        · -- below the threshold: plain insertion, reentrant pushes never run
          obtain ⟨s2, hexec, hch2, ht2, hr2, hd2, hl2, hp2⟩ :=
            execTree_low (N := nested) hinv.chain hinv.tail_ok hd hol (by omega)
          have hinv2 : PrivInv s2 (obj :: l) :=
            privInv_insert hinv hch2 ht2 hl2 hp2 hobjp
          have hnd2 : (s2.pushed ++ nodesF rest).Nodup := by
            refine List.Nodup.sublist ?_ hnd
            rw [hp2, List.append_assoc]
            refine List.Sublist.append_left ?_ s.pushed
            exact ((List.sublist_append_right (nodesF nested) (nodesF rest)).cons₂ obj)
          obtain ⟨s', l', ex, hex', hinv', hd', hp', hsub', hflat'⟩ :=
            ih rest s2 (obj :: l) hszr hinv2 hd2 hnd2
          refine ⟨s', l', obj :: ex, ?_, hinv', hd', ?_, ?_, ?_⟩
          · rw [execForest_cons, hexec]
            exact hex'
          · rw [hp', hp2]
            simp
          · rw [hnodes]
            exact (hsub'.trans (List.sublist_append_right (nodesF nested) (nodesF rest))).cons₂ obj
          · intro hfl hrc
            have hflp : nested.isEmpty = true ∧ flatF rest = true := by
              simpa [flatF, Bool.and_eq_true] using hfl
            refine hflat' hflp.2 ?_
            rw [hr2, hrc]
            rfl

/-! ## Guard-cache claims -/

/-- Claim C6: try_get returns empty iff the occupied-slot count is 0; when the
count is positive it returns the handle in the top occupied slot and the only
state change is the decremented count — in particular no domain interaction
happens in either case (the ghost domOps field is part of the state equality,
and in the empty case the state is returned untouched). -/
theorem try_get_spec :
    (∀ s : hazptr_tc, (s.try_get.1 = none ↔ s.count_ = 0) ∧
      (s.count_ = 0 → s.try_get.2 = s)) ∧
    (∀ s : hazptr_tc, 0 < s.count_ →
      s.try_get.1 = some (s.entry_ (s.count_ - 1)) ∧
      s.try_get.2 = { s with count_ := s.count_ - 1 }) := by
  constructor
  · intro s
    constructor
    · by_cases h : 0 < s.count_ <;> simp [hazptr_tc.try_get, h] <;> omega
    · intro h0
      have h : ¬ 0 < s.count_ := by omega
      simp [hazptr_tc.try_get, h]
  · intro s h
    simp [hazptr_tc.try_get, h]

theorem try_get_spec_witness :
    (((tcInit.try_put 7).2.try_get.1 = none ↔ (tcInit.try_put 7).2.count_ = 0) ∧
      ((tcInit.try_put 7).2.count_ = 0 → (tcInit.try_put 7).2.try_get.2 = (tcInit.try_put 7).2)) ∧
    ((tcInit.try_put 7).2.try_get.1 = some ((tcInit.try_put 7).2.entry_ ((tcInit.try_put 7).2.count_ - 1)) ∧
      (tcInit.try_put 7).2.try_get.2 = { (tcInit.try_put 7).2 with count_ := (tcInit.try_put 7).2.count_ - 1 }) :=
  ⟨try_get_spec.1 (tcInit.try_put 7).2, try_get_spec.2 (tcInit.try_put 7).2 (by decide)⟩

/-- Claim C7: try_put succeeds, storing the handle in the next free slot and
incrementing the count, iff count_ < capacity; on a full cache it fails and
the state (slots, count, ghost domain log) is returned unchanged. -/
theorem try_put_spec :
    (∀ (s : hazptr_tc) (h : Nat), s.count_ < kCapacity →
      s.try_put h = (true,
        { s with
            entry_ := fun i => if i = s.count_ then h else s.entry_ i,
            count_ := s.count_ + 1 })) ∧
    (∀ (s : hazptr_tc) (h : Nat), ¬ s.count_ < kCapacity →
      s.try_put h = (false, s)) := by
  constructor
  · intro s h hc
    simp [hazptr_tc.try_put, hc]
  · intro s h hc
    simp [hazptr_tc.try_put, hc]

theorem try_put_spec_witness :
    (tcInit.try_put 9 = (true,
      { tcInit with
          entry_ := fun i => if i = tcInit.count_ then 9 else tcInit.entry_ i,
          count_ := tcInit.count_ + 1 })) ∧
    (∀ s6 : hazptr_tc, s6 = { tcInit with count_ := 6 } →
      s6.try_put 9 = (false, s6)) :=
  ⟨try_put_spec.1 tcInit 9 (by decide),
   fun s6 h => try_put_spec.2 s6 9 (by rw [h]; decide)⟩

/-- Claim C5: guard-cache teardown with k occupied slots makes exactly k
release calls to the domain (one per occupied slot, in slot order), for every
state; concretely, filling to capacity 6 and removing 3 handles leaves a
teardown that performs exactly the 3 release calls for handles 1, 2, 3. -/
theorem tc_teardown_releases_exactly_count :
    (∀ s : hazptr_tc,
      s.dtor.domOps =
        s.domOps ++ (List.range s.count_).map (fun i => DomOp.release (s.entry_ i)) ∧
      s.dtor.domOps.length = s.domOps.length + s.count_) ∧
    Except.map
        (fun s6 => (s6.try_get.2.try_get.2.try_get.2.dtor).domOps.drop 6)
        (tcInit.fill [1, 2, 3, 4, 5, 6] 0) =
      Except.ok [DomOp.release 1, DomOp.release 2, DomOp.release 3] := by
  constructor
  · intro s
    exact ⟨rfl, by simp [hazptr_tc.dtor]⟩
  · rfl

/-- Claim C8: fill with count_ + num > capacity, and evict with num > count_,
are fatal precondition violations (DCHECK_LE / DCHECK_GE): the model aborts
with a precondition error and performs no state change or domain call. -/
theorem fill_evict_precondition_fatal :
    (∀ (s : hazptr_tc) (recs : List Nat) (now : Nat),
      kCapacity < s.count_ + recs.length →
      s.fill recs now = .error TCErr.precondition) ∧
    (∀ (s : hazptr_tc) (num : Nat), s.count_ < num →
      s.evict num = .error TCErr.precondition) := by
  constructor
  · intro s recs now hgt
    have hn : ¬ s.count_ + recs.length ≤ kCapacity := by omega
    simp [hazptr_tc.fill, hn]
  · intro s num hgt
    have hn : ¬ num ≤ s.count_ := by omega
    simp [hazptr_tc.evict, hn]

theorem fill_evict_precondition_fatal_witness :
    tcInit.fill [1, 2, 3, 4, 5, 6, 7] 0 = .error TCErr.precondition ∧
    tcInit.evict 1 = .error TCErr.precondition :=
  ⟨fill_evict_precondition_fatal.1 tcInit [1, 2, 3, 4, 5, 6, 7] 0 (by decide),
   fill_evict_precondition_fatal.2 tcInit 1 (by decide)⟩

/-- Claim C10: on a non-full cache, try_put h followed by try_get succeeds,
returns exactly h, and restores the original count, every originally occupied
slot, and the (absent) domain interaction. -/
theorem try_put_try_get_roundtrip :
    ∀ (s : hazptr_tc) (h : Nat), s.count_ < kCapacity →
      (s.try_put h).1 = true ∧
      (s.try_put h).2.try_get.1 = some h ∧
      (s.try_put h).2.try_get.2.count_ = s.count_ ∧
      (∀ i, i < s.count_ → (s.try_put h).2.try_get.2.entry_ i = s.entry_ i) ∧
      (s.try_put h).2.try_get.2.domOps = s.domOps := by
  intro s h hc
  refine ⟨?_, ?_, ?_, ?_, ?_⟩
  · simp [hazptr_tc.try_put, hc]
  · simp [hazptr_tc.try_put, hazptr_tc.try_get, hc]
  · simp [hazptr_tc.try_put, hazptr_tc.try_get, hc]
  · intro i hi
    have hne : i ≠ s.count_ := by omega
    simp [hazptr_tc.try_put, hazptr_tc.try_get, hc, hne]
  · simp [hazptr_tc.try_put, hazptr_tc.try_get, hc]

theorem try_put_try_get_roundtrip_witness :
    (tcInit.try_put 42).1 = true ∧
    (tcInit.try_put 42).2.try_get.1 = some 42 ∧
    (tcInit.try_put 42).2.try_get.2.count_ = tcInit.count_ ∧
    (∀ i, i < tcInit.count_ → (tcInit.try_put 42).2.try_get.2.entry_ i = tcInit.entry_ i) ∧
    (tcInit.try_put 42).2.try_get.2.domOps = tcInit.domOps :=
  try_put_try_get_roundtrip tcInit 42 (by decide)

/-! ## Refill-rate instrumentation (claim C9) -/

theorem runFills_cons (s : hazptr_tc) (t : Nat) (ts : List Nat) :
    runFills s (t :: ts) =
      match s.fill [] t with
      | .error e => .error e
      | .ok s1 => runFills s1 ts := rfl

theorem runFills_append (ts₁ ts₂ : List Nat) :
    ∀ s, runFills s (ts₁ ++ ts₂) =
      match runFills s ts₁ with
      | .error e => .error e
      | .ok s1 => runFills s1 ts₂ := by
  induction ts₁ with
  | nil => intro s; rfl
  | cons t ts ih =>
    intro s
    rw [List.cons_append, runFills_cons, runFills_cons]
    cases s.fill [] t with
    | error e => rfl
    | ok s1 => exact ih s1

/-- A zero-record fill inside an open window below the limit only bumps the
fill counter. -/
theorem fill_zero_step {s : hazptr_tc} (hc : s.count_ ≤ kCapacity) (t : Nat)
    (h0 : s.num_fills_ ≠ 0) (hle : s.num_fills_ + 1 ≤ max_fills) :
    s.fill [] t = .ok { s with num_fills_ := s.num_fills_ + 1 } := by
  have hmod : (s.num_fills_ + 1) % 65536 = s.num_fills_ + 1 :=
    Nat.mod_eq_of_lt (by unfold max_fills at hle; omega)
  have hng : ¬ max_fills < s.num_fills_ + 1 := by omega
  simp [hazptr_tc.fill, hazptr_tc.fill_should_not_be_called_frequently, hc, h0, hmod, hng]

/-- Iterated zero-record fills that keep the counter within the limit just
accumulate the counter. -/
theorem runFills_steady :
    ∀ (ts : List Nat) (s : hazptr_tc), s.count_ ≤ kCapacity → s.num_fills_ ≠ 0 →
      s.num_fills_ + ts.length ≤ max_fills →
      runFills s ts = .ok { s with num_fills_ := s.num_fills_ + ts.length } := by
  intro ts
  induction ts with
  | nil => intro s _ _ _; rfl
  | cons t ts ih =>
    intro s hc h0 hle
    rw [runFills_cons, fill_zero_step hc t h0 (by simp at hle; omega)]
    have hrec := ih { s with num_fills_ := s.num_fills_ + 1 } hc (by simp) (by simp at hle ⊢; omega)
    simp only [hrec]
    have harith : s.num_fills_ + 1 + ts.length = s.num_fills_ + (ts.length + 1) := by omega
    simp [harith]

/-- Claim C9 counterexample: twelve fill calls, the first at time 0 and eleven
more at 1.1 ms.  The last eleven calls all occur at the same instant, so more
than 10 fills land inside a 1 ms rolling window, yet the run completes with no
fatal diagnostic (final counter 2): the code checks elapsed time only against
the start of its current window, and resets that window exactly when the count
exceeds the limit, so the eleventh call at 1.1 ms passes the check (1.1 ms >
1 ms since time 0) and restarts the window.  This refutes the rolling-window
reading of the claim. -/
theorem fill_rate_rolling_window_counterexample :
    Except.map (fun s => s.num_fills_)
      (runFills tcInit (0 :: List.replicate 11 1100000)) = Except.ok 2 := rfl

/-- Claim C9 (amended): starting from a fresh instrumentation window, when
fill is invoked an 11th time no more than 1 ms after the first invocation of
the window, the fatal pathological-rate diagnostic is raised on that 11th call
(in particular, 11 refill calls within 0.5 ms from a fresh state are fatal on
the 11th); and once the fill count exceeds the limit with more than 1 ms
elapsed, the check passes and the window resets (count 1, new start time). -/
theorem fill_rate_fatal_amended :
    (∀ (s : hazptr_tc) (t1 t11 : Nat) (mid : List Nat),
      s.count_ ≤ kCapacity → s.num_fills_ = 0 → mid.length = 9 →
      t11 - t1 ≤ periodNs →
      runFills s (t1 :: (mid ++ [t11])) = .error TCErr.tooFrequent) ∧
    (∀ (s : hazptr_tc) (now : Nat),
      s.count_ ≤ kCapacity → s.num_fills_ = max_fills →
      periodNs < now - s.first_fill_time_ →
      s.fill [] now = .ok { s with num_fills_ := 1, first_fill_time_ := now }) := by
  constructor
  · intro s t1 t11 mid hc h0 hmid hdur
    have hfirst : s.fill [] t1 = .ok { s with num_fills_ := 1, first_fill_time_ := t1 } := by
      simp [hazptr_tc.fill, hazptr_tc.fill_should_not_be_called_frequently, hc, h0]
    have hmidrun := runFills_steady mid { s with num_fills_ := 1, first_fill_time_ := t1 }
      hc (by simp) (by simp [hmid, max_fills])
    have hfat : ({ s with num_fills_ := 1 + mid.length, first_fill_time_ := t1 } : hazptr_tc).fill [] t11 =
        .error TCErr.tooFrequent := by
      have hnd : ¬ periodNs < t11 - t1 := by omega
      have h10 : (1 : Nat) + mid.length = 10 := by omega
      simp [hazptr_tc.fill, hazptr_tc.fill_should_not_be_called_frequently, hc, h10,
        max_fills, hnd]
    rw [runFills_cons, hfirst]
    show runFills { s with num_fills_ := 1, first_fill_time_ := t1 } (mid ++ [t11]) = _
    rw [runFills_append, hmidrun]
    show runFills { s with num_fills_ := 1 + mid.length, first_fill_time_ := t1 } [t11] = _
    rw [runFills_cons, hfat]
  · intro s now hc h10 hdur
    simp [hazptr_tc.fill, hazptr_tc.fill_should_not_be_called_frequently, hc, h10,
      max_fills, hdur]

theorem fill_rate_fatal_amended_witness :
    runFills tcInit (0 :: (List.replicate 9 100 ++ [500000])) = .error TCErr.tooFrequent ∧
    hazptr_tc.fill { tcInit with num_fills_ := 10, first_fill_time_ := 0 } [] 2000000 =
      .ok { tcInit with num_fills_ := 1, first_fill_time_ := 2000000 } :=
  ⟨fill_rate_fatal_amended.1 tcInit 0 500000 (List.replicate 9 100)
      (by decide) rfl (by decide) (by decide),
   fill_rate_fatal_amended.2 { tcInit with num_fills_ := 10, first_fill_time_ := 0 } 2000000
      (by decide) rfl (by decide)⟩

/-! ## Retired-buffer claims -/

/-- Claim C1 (amended): for every well-nested execution of push calls with
pairwise-distinct fresh objects on a live (not torn-down) buffer satisfying
the invariant — in particular the initial buffer, and by composition every
observation point between operations — the execution completes and afterwards
the list reachable from head_ contains exactly the pushed, not-yet-flushed
objects with no duplicates and no loss, and head_ is null iff tail_ is null;
rcount_ equals the number of reachable nodes in executions free of reentrant
pushes.  (The original claim's unconditional rcount_ clause fails under
reentrancy: a reentrant push left buffered when the enclosing flush's domain
call returns is erased from the count by the trailing rcount_ = 0; see the
counterexample.) -/
theorem priv_push_invariant_amended :
    ∀ (F : List PushTree) (s : hazptr_priv) (l : List Nat),
      PrivInv s l → s.in_dtor_ = false → (s.pushed ++ nodesF F).Nodup →
      ∃ s' l', execForest s F = some s' ∧ PrivInv s' l' ∧
        chainFrom s'.next s'.head_ l' ∧ l'.Nodup ∧
        (deliveredNodes s'.log ++ l').Perm s'.pushed ∧
        (s'.head_ = none ↔ s'.tail_ = none) ∧
        (flatF F = true → s.rcount_ = l.length → s'.rcount_ = l'.length) := by
  intro F s l hinv hd hnd
  obtain ⟨s', l', ex, hex, hinv', hd', hp', hsub', hfl'⟩ :=
    execForest_sound (sizeOf F) F s l (le_refl _) hinv hd hnd
  exact ⟨s', l', hex, hinv', hinv'.chain, hinv'.list_nodup, hinv'.hand,
    hinv'.head_iff_tail, hfl'⟩

theorem priv_push_invariant_amended_witness :
    ∃ s' l',
      execForest privInit [PushTree.node 1 [], PushTree.node 2 []] = some s' ∧
      PrivInv s' l' ∧ chainFrom s'.next s'.head_ l' ∧ l'.Nodup ∧
      (deliveredNodes s'.log ++ l').Perm s'.pushed ∧
      (s'.head_ = none ↔ s'.tail_ = none) ∧
      (flatF [PushTree.node 1 [], PushTree.node 2 []] = true →
        privInit.rcount_ = List.length ([] : List Nat) → s'.rcount_ = l'.length) :=
  priv_push_invariant_amended [PushTree.node 1 [], PushTree.node 2 []] privInit []
    privInv_init rfl (by simp [nodesF, privInit])

/-- Claim C1 counterexample: push objects 1..19, then push object 20, which
triggers the threshold flush; during that flush's domain hand-off two
reentrant pushes (21, 22) occur.  Object 21 triggers a second (nested) flush
that resets rcount_ to 0, object 22 is then pushed and buffered (rcount_ = 1);
when the outer hand-off returns, push_all_to_domain executes its trailing
rcount_ = 0.  At the quiescent point after the whole push — between
operations, long after collect — the list reachable from head_ is [22]
(one node) while rcount_ is 0, refuting the claim that rcount_ equals the
reachable-node count except transiently during collect. -/
theorem priv_rcount_reentrancy_counterexample :
    Option.map (fun s => (s.rcount_, reach s.next s.pushed.length s.head_))
      (execForest privInit
        (flat [1, 2, 3, 4, 5, 6, 7, 8, 9, 10, 11, 12, 13, 14, 15, 16, 17, 18, 19] ++
          [PushTree.node 20 [PushTree.node 21 [], PushTree.node 22 []]])) =
      some (0, [22]) := by
  obtain ⟨s19, hex19, hch19, ht19, hr19, hd19, hl19, hp19⟩ :=
    seq_pushes [1, 2, 3, 4, 5, 6, 7, 8, 9, 10, 11, 12, 13, 14, 15, 16, 17, 18, 19]
      privInit [] rfl rfl rfl (by simp) (by decide) (by decide)
  obtain ⟨s3, h3h, h3t, h3r, h3d, h3l, h3p, hcomp⟩ :=
    execTree_flush_run (s := s19)
      (l := [1, 2, 3, 4, 5, 6, 7, 8, 9, 10, 11, 12, 13, 14, 15, 16, 17, 18, 19].reverse ++ [])
      (o := 20) (N := [PushTree.node 21 [], PushTree.node 22 []])
      hch19 ht19 hd19 (by decide) (by rw [hp19]; simp [privInit]) (by rw [hr19]; simp [privInit, kThreshold])
  have h3rc : kThreshold ≤ s3.rcount_ + 1 := by
    rw [h3r, hr19]
    simp [privInit, kThreshold]
  obtain ⟨s4, hex4, h4h, h4t, h4r, h4d, h4l, h4p⟩ :=
    execTree_flush (s := s3) (l := []) (o := 21) h3h h3t h3d (by simp)
      (by simp) h3rc
  obtain ⟨s5, hex5, hch5, ht5, hr5, hd5, hl5, hp5⟩ :=
    execTree_low (s := s4) (l := []) (o := 22) (N := [])
      h4h h4t h4d (by simp) (by rw [h4r]; simp [kThreshold])
  have hnested : execForest s3 [PushTree.node 21 [], PushTree.node 22 []] = some s5 := by
    simp only [execForest_cons, hex4, hex5, execForest_nil]
  have hfull : execForest privInit
      (flat [1, 2, 3, 4, 5, 6, 7, 8, 9, 10, 11, 12, 13, 14, 15, 16, 17, 18, 19] ++
        [PushTree.node 20 [PushTree.node 21 [], PushTree.node 22 []]]) =
      some { s5 with rcount_ := 0 } := by
    rw [execForest_append, hex19]
    simp only [execForest_cons, hcomp s5 hnested, execForest_nil]
  rw [hfull]
  have hre : reach s5.next s5.pushed.length s5.head_ = [22] :=
    reach_of_chain hch5 (by simp [hp5])
  simp [hre]

/-- Claim C2: pushing exactly 20 distinct objects into a fresh (not torn-down)
buffer triggers exactly one automatic flush, on the 20th push — the domain log
is still empty after the first 19 pushes — delivering a single batch holding
all 20 objects with count 20 and leaving rcount_ = 0; pushing 25 objects
sequentially therefore produces exactly one bulk-retire call, that batch of 20
after the 20th push, with the remaining 5 objects buffered (rcount_ = 5). -/
theorem priv_threshold_flush :
    ∀ (pre : List Nat) (o : Nat) (rest : List Nat),
      pre.length = 19 → rest.length = 5 → (pre ++ o :: rest).Nodup →
      (∃ sA, execForest privInit (flat pre) = some sA ∧ sA.log = [] ∧ sA.rcount_ = 19) ∧
      (∃ sB, execForest privInit (flat (pre ++ [o])) = some sB ∧
        sB.log = [(o :: pre.reverse, 20)] ∧ sB.rcount_ = 0 ∧
        sB.head_ = none ∧ sB.tail_ = none) ∧
      (∃ sC, execForest privInit (flat (pre ++ o :: rest)) = some sC ∧
        sC.log = [(o :: pre.reverse, 20)] ∧ sC.rcount_ = 5 ∧
        chainFrom sC.next sC.head_ rest.reverse) := by
  intro pre o rest hpre hrest hnd
  have hnd1 := List.nodup_append.mp hnd
  have hpreN : pre.Nodup := hnd1.1
  have hoPre : o ∉ pre := fun h => hnd1.2.2 h (by simp)
  have hrestN : rest.Nodup := (List.nodup_cons.mp hnd1.2.1).2
  obtain ⟨sA, hexA, hchA, htA, hrA, hdA, hlA, hpA⟩ :=
    seq_pushes pre privInit [] rfl rfl rfl (by simp) hpreN
      (by rw [hpre]; simp [privInit, kThreshold])
  rw [List.append_nil] at hchA htA
  have hrA19 : sA.rcount_ = 19 := by rw [hrA, hpre]; simp [privInit]
  have hpA19 : sA.pushed = pre := hpA
  obtain ⟨sB, hexB, hBh, hBt, hBr, hBd, hBl, hBp⟩ :=
    execTree_flush (s := sA) (l := pre.reverse) (o := o) hchA htA hdA
      (by simpa using hoPre) (by rw [hpA19]; simp) (by rw [hrA19]; simp [kThreshold])
  have hexB' : execForest privInit (flat (pre ++ [o])) = some sB := by
    have hsplit : flat (pre ++ [o]) = flat pre ++ [PushTree.node o []] := by
      simp [flat]
    rw [hsplit, execForest_append, hexA]
    simp only [execForest_cons, hexB, execForest_nil]
  have hBlog : sB.log = [(o :: pre.reverse, 20)] := by
    rw [hBl, hlA, hrA19]
    simp [privInit]
  obtain ⟨sC, hexC, hchC, htC, hrC, hdC, hlC, hpC⟩ :=
    seq_pushes rest sB [] hBh hBt hBd (by simp) hrestN
      (by rw [hBr, hrest]; simp [kThreshold])
  have hexC' : execForest privInit (flat (pre ++ o :: rest)) = some sC := by
    have hsplit : flat (pre ++ o :: rest) = flat (pre ++ [o]) ++ flat rest := by
      simp [flat]
    rw [hsplit, execForest_append, hexB']
    exact hexC
  refine ⟨⟨sA, hexA, hlA, hrA19⟩, ⟨sB, hexB', hBlog, hBr, hBh, hBt⟩,
    ⟨sC, hexC', ?_, ?_, ?_⟩⟩
  · rw [hlC, hBlog]
  · rw [hrC, hBr, hrest]
  · simpa using hchC

theorem priv_threshold_flush_witness :
    (∃ sA, execForest privInit
        (flat [1, 2, 3, 4, 5, 6, 7, 8, 9, 10, 11, 12, 13, 14, 15, 16, 17, 18, 19]) = some sA ∧
      sA.log = [] ∧ sA.rcount_ = 19) ∧
    (∃ sB, execForest privInit
        (flat ([1, 2, 3, 4, 5, 6, 7, 8, 9, 10, 11, 12, 13, 14, 15, 16, 17, 18, 19] ++ [20])) = some sB ∧
      sB.log = [(20 :: [1, 2, 3, 4, 5, 6, 7, 8, 9, 10, 11, 12, 13, 14, 15, 16, 17, 18, 19].reverse, 20)] ∧
      sB.rcount_ = 0 ∧ sB.head_ = none ∧ sB.tail_ = none) ∧
    (∃ sC, execForest privInit
        (flat ([1, 2, 3, 4, 5, 6, 7, 8, 9, 10, 11, 12, 13, 14, 15, 16, 17, 18, 19] ++
          20 :: [21, 22, 23, 24, 25])) = some sC ∧
      sC.log = [(20 :: [1, 2, 3, 4, 5, 6, 7, 8, 9, 10, 11, 12, 13, 14, 15, 16, 17, 18, 19].reverse, 20)] ∧
      sC.rcount_ = 5 ∧
      chainFrom sC.next sC.head_ [21, 22, 23, 24, 25].reverse) :=
  priv_threshold_flush [1, 2, 3, 4, 5, 6, 7, 8, 9, 10, 11, 12, 13, 14, 15, 16, 17, 18, 19]
    20 [21, 22, 23, 24, 25] rfl rfl (by decide)

/-- Auxiliary concrete buffer state holding the single retired object 5
(head_ = tail_ = 5, its next-link null, rcount_ = 1). -/
def wPriv : hazptr_priv := ⟨some 5, some 5, fun _ => none, 1, false, [], [5]⟩

/-- Claim C3: teardown sets in_dtor_ and, for every buffer holding m retired
objects (m = 0 included), hands all m of them to the domain exactly once, in
one single batch — for m = 0 no domain call at all is made, so the m objects
are still delivered exactly once vacuously — after which the buffer is empty;
and every push issued after teardown has begun bypasses the list entirely,
handing its object to the domain as an immediate singleton batch of count 1. -/
theorem priv_teardown_flush :
    (∀ (s : hazptr_priv) (l : List Nat),
      chainFrom s.next s.head_ l → s.tail_ = l.getLast? →
      l.length ≤ s.pushed.length → s.rcount_ = l.length →
      hazptr_priv_dtor s =
        { s with
            head_ := none, tail_ := none, rcount_ := 0, in_dtor_ := true,
            log := s.log ++ if l.isEmpty then [] else [(l, l.length)] }) ∧
    (∀ (s : hazptr_priv) (obj : Nat), s.in_dtor_ = true →
      execForest s [PushTree.node obj []] =
        some { s with log := s.log ++ [([obj], 1)], pushed := s.pushed ++ [obj] }) := by
  constructor
  · intro s l hch ht hlen hrc
    by_cases hl : l = []
    · subst hl
      have hh : s.head_ = none := hch
      have htn : s.tail_ = none := ht
      have hr0 : s.rcount_ = 0 := hrc
      simp only [hazptr_priv_dtor]
      simp only [hh]
      cases s
      simp_all
    · have hh : s.head_ ≠ none := fun h => hl ((chainFrom_head_none hch).mp h)
      have hie : l.isEmpty = false := by
        cases l with
        | nil => exact absurd rfl hl
        | cons a l => rfl
      have hfp := flush_pre_some (s := { s with in_dtor_ := true }) (l := l) hch hlen hl
      simp only [hazptr_priv_dtor]
      simp only [hh]
      simp only [push_all_to_domain, hfp, hie]
      rw [hrc]
      cases s
      simp_all
  · intro s obj hdt
    have hT : execTree s (PushTree.node obj []) =
        some { s with log := s.log ++ [([obj], 1)], pushed := s.pushed ++ [obj] } := by
      rw [execTree]
      simp [hdt]
    simp only [execForest_cons, hT, execForest_nil]

theorem priv_teardown_flush_witness :
    (hazptr_priv_dtor wPriv =
      { wPriv with
          head_ := none, tail_ := none, rcount_ := 0, in_dtor_ := true,
          log := wPriv.log ++ if ([5] : List Nat).isEmpty then [] else [([5], [5].length)] }) ∧
    (execForest { privInit with in_dtor_ := true } [PushTree.node 7 []] =
      some { privInit with
        in_dtor_ := true, log := privInit.log ++ [([7], 1)],
        pushed := privInit.pushed ++ [7] }) :=
  ⟨priv_teardown_flush.1 wPriv [5] ⟨rfl, rfl⟩ rfl (by decide) rfl,
   priv_teardown_flush.2 { privInit with in_dtor_ := true } 7 rfl⟩

/-- Claim C4: push_all_to_domain detaches the whole list by exchanging head_
and then tail_ with null, builds the batch (detached nodes, count = rcount_),
calls the domain's bulk-retire entry exactly when the detached list is
non-empty, and then resets rcount_ to zero; when the list is empty no domain
call is made and the state is returned unchanged. -/
theorem push_all_to_domain_spec :
    ∀ (s : hazptr_priv) (l : List Nat),
      chainFrom s.next s.head_ l → l.length ≤ s.pushed.length →
      push_all_to_domain s =
        if l.isEmpty then s
        else
          { s with
              head_ := none, tail_ := none, rcount_ := 0,
              log := s.log ++ [(l, s.rcount_)] } := by
  intro s l hch hlen
  by_cases hl : l = []
  · subst hl
    have hh : s.head_ = none := hch
    simp [push_all_to_domain, flush_pre_none hh]
  · have hie : l.isEmpty = false := by
      cases l with
      | nil => exact absurd rfl hl
      | cons a l => rfl
    have hfp := flush_pre_some hch hlen hl
    simp [push_all_to_domain, hfp, hie]

theorem push_all_to_domain_spec_witness :
    push_all_to_domain wPriv =
      if ([5] : List Nat).isEmpty then wPriv
      else
        { wPriv with
            head_ := none, tail_ := none, rcount_ := 0,
            log := wPriv.log ++ [([5], wPriv.rcount_)] } :=
  push_all_to_domain_spec wPriv [5] ⟨rfl, rfl⟩ (by decide)

end Folly
